import Mathlib

/-!
# alps (koushin): connection pool, message listing and MIME part resolution

A shallow embedding of `conn_pool.go`, of the pure part functions of `imap.go`
(`textPartPath`, `imapPartTree`, `TextPartName`, `PathString`, `IsText`) and of
`listMessages`, followed by theorems about them.

Conventions of the embedding.

* Go `string` is `String`, a sequence of runes.
* Go `int` is `Int`; arithmetic that can leave the 64-bit range is wrapped
  explicitly with `wrapInt`. `uint32` is `Nat` below `2 ^ 32`.
* Go `[]int` paths are `List Int`; the `nil` slice is `[]`.
* A pointer that may be `nil` is an `Option`.
* The external IMAP client is a record of the answers it gives.
-/

namespace Alps

/-! ## The pieces of Go's `strings`, `unicode` and `strconv` used by the program -/

/-- Lower-case an ASCII capital, leave every other rune alone. -/
def asciiLower (c : Char) : Char :=
  if 'A' ≤ c ∧ c ≤ 'Z' then Char.ofNat (c.toNat + 32) else c

/-- Go `unicode.ToLower`, restricted to what a comparison with an ASCII
constant can observe: ASCII capitals, and the two non-ASCII runes whose lower
case is an ASCII letter (U+0130 gives `i`, U+212A gives `k`). Other runes are
left unchanged; their lower case is never an ASCII rune. -/
def toLowerRune (c : Char) : Char :=
  if 'A' ≤ c ∧ c ≤ 'Z' then Char.ofNat (c.toNat + 32)
  else if c.toNat = 0x130 then 'i'
  else if c.toNat = 0x212A then 'k'
  else c

/-- Go `strings.ToLower`: maps every rune through `unicode.ToLower`. -/
def ToLower (s : String) : String := ⟨s.data.map toLowerRune⟩

/-- Two runes are equal under Unicode simple case folding. Exact whenever one
of the two runes is ASCII (the program only folds against ASCII constants):
an ASCII letter folds with its other case, `k` and `K` also with U+212A,
`s` and `S` also with U+017F. -/
def foldEqRune (a b : Char) : Bool :=
  a == b || asciiLower a == asciiLower b
    || (a.toNat == 0x212A && asciiLower b == 'k') || (b.toNat == 0x212A && asciiLower a == 'k')
    || (a.toNat == 0x17F && asciiLower b == 's') || (b.toNat == 0x17F && asciiLower a == 's')

/-- Rune-by-rune comparison under simple case folding. -/
def equalFoldRunes : List Char → List Char → Bool
  | [], [] => true
  | a :: s, b :: t => foldEqRune a b && equalFoldRunes s t
  | _, _ => false

/-- Go `strings.EqualFold`. -/
def EqualFold (s t : String) : Bool := equalFoldRunes s.data t.data

/-- Go `strings.HasPrefix`. -/
def HasPrefix (s pre : String) : Bool := pre.data.isPrefixOf s.data

/-- Go `strconv.Itoa`. -/
def Itoa (n : Int) : String := toString n

/-- Go `strings.Join`. -/
def Join (l : List String) (sep : String) : String := sep.intercalate l

/-! ## Body structures and the default text part (`imap.go`) -/

/-- The fields of go-imap's `BodyStructure` that the program reads. `Filename`
stands for the result of the library accessor `bs.Filename()`. -/
inductive BodyStructure where
  | mk (MIMEType MIMESubType Disposition Filename : String) (Parts : List BodyStructure)

namespace BodyStructure

def MIMEType : BodyStructure → String
  | mk t _ _ _ _ => t

def MIMESubType : BodyStructure → String
  | mk _ s _ _ _ => s

def Disposition : BodyStructure → String
  | mk _ _ d _ _ => d

def Filename : BodyStructure → String
  | mk _ _ _ f _ => f

def Parts : BodyStructure → List BodyStructure
  | mk _ _ _ _ ps => ps

end BodyStructure

mutual
/-- `textPartPath` of `imap.go`. The `for` loop over `bs.Parts` is
`textPartLoop`, started at index `0` with `textPartNum = -1`. -/
def textPartPath : BodyStructure → List Int × Bool
  | .mk ty _ disp _ parts =>
    if disp ≠ "" ∧ ¬ EqualFold disp "inline" then ([], false)
    else if EqualFold ty "text" then ([1], true)
    else if ¬ EqualFold ty "multipart" then ([], false)
    else textPartLoop parts 0 (-1)
/-- The loop of `textPartPath`: `i` is the loop index, `textPartNum` the
candidate recorded so far; the empty list is the code after the loop. -/
def textPartLoop : List BodyStructure → Nat → Int → List Int × Bool
  | [], _, textPartNum => if textPartNum > 0 then ([textPartNum], true) else ([], false)
  | part :: rest, i, textPartNum =>
    let num : Int := (i : Int) + 1
    match (if EqualFold part.MIMEType "multipart" then textPartPath part else ([], false)) with
    | (subpath, true) => (num :: subpath, true)
    | (_, false) =>
      if ¬ EqualFold part.MIMEType "text" then textPartLoop rest (i + 1) textPartNum
      else
        let pick : Bool :=
          if ToLower part.MIMESubType = "plain" then true
          else if ToLower part.MIMESubType = "html" then decide (textPartNum < 0)
          else false
        textPartLoop rest (i + 1) (if pick then num else textPartNum)
end

/-- Follow 1-based indices through `Parts`. -/
def followPath : BodyStructure → List Int → Option BodyStructure
  | bs, [] => some bs
  | bs, k :: ks =>
    if 1 ≤ k then
      match bs.Parts[(k - 1).toNat]? with
      | some c => followPath c ks
      | none => none
    else none

/-- The part a path addresses: the structure itself for `[1]` on a
non-multipart structure, otherwise the part reached through `Parts`. -/
def partAt (bs : BodyStructure) (p : List Int) : Option BodyStructure :=
  if ¬ EqualFold bs.MIMEType "multipart" ∧ p = [1] then some bs else followPath bs p

/-- A part of type `text/plain`, as the loop of `textPartPath` tests it. -/
def isTextPlain (b : BodyStructure) : Bool :=
  EqualFold b.MIMEType "text" && decide (ToLower b.MIMESubType = "plain")

/-- A part of type `text/html`, as the loop of `textPartPath` tests it. -/
def isTextHTML (b : BodyStructure) : Bool :=
  EqualFold b.MIMEType "text" && decide (ToLower b.MIMESubType = "html")

/-- The dotted form of a path, shared by `TextPartName` and `PathString`. -/
def pathString (path : List Int) : String := Join (path.map Itoa) "."

/-- `imapMessage.TextPartName`; the argument is `msg.BodyStructure`. -/
def TextPartName : Option BodyStructure → String
  | none => ""
  | some bs =>
    match textPartPath bs with
    | (_, false) => ""
    | (path, true) => pathString path

/-! ## The part tree (`imap.go`) -/

/-- `IMAPPartNode` of `imap.go`. -/
inductive IMAPPartNode where
  | mk (Path : List Int) (MIMEType Filename : String) (Children : List IMAPPartNode)

namespace IMAPPartNode

def Path : IMAPPartNode → List Int
  | mk p _ _ _ => p

def MIMEType : IMAPPartNode → String
  | mk _ t _ _ => t

def Filename : IMAPPartNode → String
  | mk _ _ f _ => f

def Children : IMAPPartNode → List IMAPPartNode
  | mk _ _ _ cs => cs

/-- `IMAPPartNode.PathString`. -/
def PathString (node : IMAPPartNode) : String := pathString node.Path

/-- `IMAPPartNode.IsText`. -/
def IsText (node : IMAPPartNode) : Bool := HasPrefix (ToLower node.MIMEType) "text/"

end IMAPPartNode

mutual
/-- `imapPartTree` of `imap.go`; the loop filling `node.Children` is
`imapPartTreeLoop`. -/
def imapPartTree : BodyStructure → List Int → IMAPPartNode
  | .mk ty sub _ fn parts, path =>
    let path := if ¬ EqualFold ty "multipart" ∧ path.length = 0 then [1] else path
    .mk path (ToLower (ty ++ "/" ++ sub)) fn (imapPartTreeLoop parts path 0)
/-- The loop of `imapPartTree`, from index `i` on. -/
def imapPartTreeLoop : List BodyStructure → List Int → Nat → List IMAPPartNode
  | [], _, _ => []
  | part :: rest, path, i =>
    imapPartTree part (path ++ [(i : Int) + 1]) :: imapPartTreeLoop rest path (i + 1)
end

/-- `imapMessage.PartTree`; the argument is `msg.BodyStructure`. -/
def PartTree : Option BodyStructure → Option IMAPPartNode
  | none => none
  | some bs => some (imapPartTree bs [])

mutual
/-- Every node of a part tree, the root first. -/
def treeNodes : IMAPPartNode → List IMAPPartNode
  | .mk p t f cs => .mk p t f cs :: forestNodes cs
/-- Every node of a list of part trees. -/
def forestNodes : List IMAPPartNode → List IMAPPartNode
  | [] => []
  | n :: ns => treeNodes n ++ forestNodes ns
end

/-- A part tree mirrors a body structure: same number of children, child
`i` (1-based) carries its parent's path followed by `i`, the lower-cased type
and the file name of the part at the same position, and mirrors that part. -/
inductive Mirrors : BodyStructure → IMAPPartNode → Prop
  | node (bs : BodyStructure) (n : IMAPPartNode)
      (hty : n.MIMEType = ToLower (bs.MIMEType ++ "/" ++ bs.MIMESubType))
      (hfn : n.Filename = bs.Filename)
      (hlen : n.Children.length = bs.Parts.length)
      (hpath : ∀ (i : Nat) (c : IMAPPartNode),
        n.Children[i]? = some c → c.Path = n.Path ++ [(i : Int) + 1])
      (hch : ∀ (i : Nat) (b : BodyStructure) (c : IMAPPartNode),
        bs.Parts[i]? = some b → n.Children[i]? = some c → Mirrors b c) :
      Mirrors bs n

/-! ## Listing messages (`imap.go`, `server.go`) -/

/-- `messagesPerPage` of `server.go`. -/
def messagesPerPage : Int := 50

/-- A Go `int` (64 bits, two's complement): the value an arithmetic result
takes after wrap-around. -/
def wrapInt (x : Int) : Int := (x + 2 ^ 63) % 2 ^ 64 - 2 ^ 63

/-- The conversion `uint32(x)` of a Go `int`. -/
def toUint32 (x : Int) : Nat := (x % 2 ^ 32).toNat

/-- What the IMAP client answers during one call of `listMessages`:
`selectErr` is the result of `ensureMailboxSelected`, `Messages` the field
`conn.Mailbox().Messages` (a `uint32`), and `Fetch lo hi` the messages that
`conn.Fetch` sends on the channel for the sequence range `lo:hi`, in the order
sent, with the error it reports on `done`. -/
structure Client (Msg : Type) where
  selectErr : Option String
  Messages : Nat
  Fetch : Nat → Nat → List Msg × Option String

/-- The outcome of `listMessages`: the returned slice and error, and the
sequence ranges for which a fetch was issued. -/
structure ListResult (Msg : Type) where
  msgs : List Msg
  err : Option String
  fetches : List (Nat × Nat)

/-- The value `to` of `listMessages`. -/
def pageTo (n : Nat) (page : Int) : Int :=
  wrapInt ((n : Int) - wrapInt (page * messagesPerPage))

/-- The value `from` of `listMessages`, after the clamp to `1`. -/
def pageFrom (n : Nat) (page : Int) : Int :=
  let «from» := wrapInt (wrapInt (pageTo n page - messagesPerPage) + 1)
  if «from» ≤ 0 then 1 else «from»

/-- The assignment `msgs[i], msgs[j] = msgs[j], msgs[i]`. -/
def swapAt {α : Type} (l : List α) (i j : Nat) : List α :=
  match l[i]?, l[j]? with
  | some a, some b => (l.set i b).set j a
  | _, _ => l

/-- The loop `for i := len(msgs)/2 - 1; i >= 0; i--` of `listMessages`; the
first argument is `i + 1`. -/
def reverseLoop {α : Type} : Nat → List α → List α
  | 0, l => l
  | i + 1, l => reverseLoop i (swapAt l i (l.length - 1 - i))

/-- The in-place reversal at the end of `listMessages`. -/
def reverseInPlace {α : Type} (msgs : List α) : List α :=
  reverseLoop (msgs.length / 2) msgs

/-- `listMessages` of `imap.go`. -/
def listMessages {Msg : Type} (conn : Client Msg) (page : Int) : ListResult Msg :=
  match conn.selectErr with
  | some e => ⟨[], some e, []⟩
  | none =>
    let «to» := pageTo conn.Messages page
    let «from» := pageFrom conn.Messages page
    if «to» ≤ 0 then ⟨[], none, []⟩
    else
      let lo := toUint32 «from»
      let hi := toUint32 «to»
      match conn.Fetch lo hi with
      | (_, some e) => ⟨[], some ("failed to fetch message list: " ++ e), [(lo, hi)]⟩
      | (msgs, none) => ⟨reverseInPlace msgs, none, [(lo, hi)]⟩

/-! ## The connection pool (`conn_pool.go`) -/

/-- `ErrSessionExpired`. -/
def ErrSessionExpired : String := "session expired"

/-- `ConnPool`: the map `conns` from token to connection. The mutex is not
modelled; every operation below is one critical section. -/
structure ConnPool (Conn : Type) where
  conns : String → Option Conn

/-- `NewConnPool`. -/
def NewConnPool {Conn : Type} : ConnPool Conn := ⟨fun _ => none⟩

/-- `ConnPool.Get`. -/
def ConnPool.Get {Conn : Type} (pool : ConnPool Conn) (token : String) : Except String Conn :=
  match pool.conns token with
  | none => .error ErrSessionExpired
  | some conn => .ok conn

/-- The `for` loop of `ConnPool.Put`, fed with the successive results of
`generateToken`. `none` when the given results end before the loop does. -/
def putLoop {Conn : Type} (pool : ConnPool Conn) : List (Except String String) → Option (Except String String)
  | [] => none
  | .error e :: _ => some (.error e)
  | .ok token :: rest => if (pool.conns token).isSome then putLoop pool rest else some (.ok token)

/-- The outcome of `ConnPool.Put`: the pool afterwards, the returned token and
error, whether `conn.Logout()` was called, and the token the logout watcher
started by the call will delete. -/
structure PutResult (Conn : Type) where
  pool : ConnPool Conn
  token : String
  err : Option String
  loggedOut : Bool
  watcher : Option String

/-- `ConnPool.Put`, fed with the successive results of `generateToken`. -/
def ConnPool.Put {Conn : Type} (pool : ConnPool Conn) (conn : Conn)
    (draws : List (Except String String)) : Option (PutResult Conn) :=
  match putLoop pool draws with
  | none => none
  | some (.error e) => some ⟨pool, "", some e, true, none⟩
  | some (.ok token) =>
    some ⟨⟨fun k => if k = token then some conn else pool.conns k⟩, token, none, false, some token⟩

/-- The delete step of the logout watcher started by `Put` for `token`. -/
def ConnPool.watcherDelete {Conn : Type} (pool : ConnPool Conn) (token : String) : ConnPool Conn :=
  ⟨fun k => if k = token then none else pool.conns k⟩

/-- One operation on the pool. -/
inductive PoolOp (Conn : Type) where
  | put (conn : Conn) (draws : List (Except String String))
  | get (token : String)
  | delete (token : String)

/-- Run operations in order. The result is the final pool with the
registrations made by the successful `Put`s, oldest first; `none` when a
`Put` does not finish. -/
def runOps {Conn : Type} : ConnPool Conn → List (PoolOp Conn) → Option (ConnPool Conn × List (String × Conn))
  | pool, [] => some (pool, [])
  | pool, .put conn draws :: ops =>
    match pool.Put conn draws with
    | none => none
    | some r =>
      match runOps r.pool ops with
      | none => none
      | some (final, regs) =>
        some (final, if r.err.isNone then (r.token, conn) :: regs else regs)
  | pool, .get _ :: ops => runOps pool ops
  | pool, .delete token :: ops => runOps (pool.watcherDelete token) ops

/-- The operation is a `Put`. -/
def PoolOp.isPut {Conn : Type} : PoolOp Conn → Bool
  | .put _ _ => true
  | _ => false

/-- The operation is a watcher delete step. -/
def PoolOp.isDelete {Conn : Type} : PoolOp Conn → Bool
  | .delete _ => true
  | _ => false

/-- A lower-case ASCII rune that simple case folding relates only to itself
and to its ASCII capital. -/
def plainLower (b : Char) : Prop :=
  asciiLower b = b ∧ toLowerRune b = b ∧ b ≠ 'k' ∧ b ≠ 's' ∧ b.toNat ≠ 0x212A ∧ b.toNat ≠ 0x17F

instance (b : Char) : Decidable (plainLower b) := by
  unfold plainLower; infer_instance

/-! ## Concrete inputs -/

/-- The structure multipart/mixed with children multipart/alternative holding
one text/html part, then text/plain. -/
def nestedFirstExample : BodyStructure :=
  .mk "multipart" "mixed" "" ""
    [.mk "multipart" "alternative" "" "" [.mk "text" "html" "" "" []],
     .mk "text" "plain" "" "" []]

/-- The structure multipart/alternative with children text/plain, text/html. -/
def plainThenHTML : BodyStructure :=
  .mk "multipart" "alternative" "" "" [.mk "text" "plain" "" "" [], .mk "text" "html" "" "" []]

/-- The structure multipart/alternative with children text/html, text/plain. -/
def htmlThenPlain : BodyStructure :=
  .mk "multipart" "alternative" "" "" [.mk "text" "html" "" "" [], .mk "text" "plain" "" "" []]

/-- The structure multipart/mixed whose only child is a text/plain part with
disposition "attachment". -/
def attachmentChild : BodyStructure :=
  .mk "multipart" "mixed" "" "" [.mk "text" "plain" "attachment" "notes.txt" []]

/-- A multipart/mixed structure with three leaf children. -/
def threeChildren : BodyStructure :=
  .mk "multipart" "mixed" "" ""
    [.mk "text" "plain" "" "" [], .mk "image" "png" "attachment" "a.png" [],
     .mk "application" "pdf" "attachment" "b.pdf" []]

/-- A client whose mailbox is selected, holds `n` messages named by their
sequence numbers, and delivers a requested range in ascending order. -/
def mailboxOf (n : Nat) : Client Nat :=
  ⟨none, n, fun lo hi => (List.range' lo (hi + 1 - lo), none)⟩

/-- Two registrations; the second `Put` first draws the token already in use. -/
def twoPuts : List (PoolOp Nat) :=
  [.put 1 [.ok "a"], .put 2 [.ok "a", .ok "b"], .get "a"]

/-- Connection 1 is registered under "t" and logs out. -/
def loginLogout : List (PoolOp Nat) :=
  [.put 1 [.ok "t"], .delete "t"]

/-- After the logout of connection 1, a `Put` of connection 2 draws "t" again. -/
def tokenDrawnAgain : List (PoolOp Nat) :=
  [.put 2 [.ok "t"]]

/-- After the logout of connection 1, connection 2 is registered under another
token, looked up and logged out. -/
def otherSession : List (PoolOp Nat) :=
  [.put 2 [.ok "u"], .get "t", .get "u", .delete "u"]

/-- The pool after a run, or the empty pool when the run does not finish. -/
def poolAfter (pool : ConnPool Nat) (ops : List (PoolOp Nat)) : ConnPool Nat :=
  match runOps pool ops with
  | some (final, _) => final
  | none => NewConnPool

/-! ## Facts about the string functions -/

theorem equalFoldRunes_length : ∀ (s t : List Char), equalFoldRunes s t = true → s.length = t.length
  | [], [], _ => rfl
  | [], _ :: _, h => by simp [equalFoldRunes] at h
  | _ :: _, [], h => by simp [equalFoldRunes] at h
  | _ :: s, _ :: t, h => by
    simp only [equalFoldRunes, Bool.and_eq_true] at h
    simp [equalFoldRunes_length s t h.2]

theorem equalFold_multipart_not_text (ty : String) (h : EqualFold ty "multipart" = true) :
    EqualFold ty "text" = false := by
  cases hx : EqualFold ty "text"
  · rfl
  · have h1 := equalFoldRunes_length _ _ h
    have h2 := equalFoldRunes_length _ _ hx
    rw [h1] at h2
    exact absurd h2 (by decide)

/-! ## `textPartPath` -/

theorem textPartPath_multipart (ty sub disp fn : String) (parts : List BodyStructure)
    (hty : EqualFold ty "multipart" = true)
    (hdisp : disp = "" ∨ EqualFold disp "inline" = true) :
    textPartPath (.mk ty sub disp fn parts) = textPartLoop parts 0 (-1) := by
  have hnt := equalFold_multipart_not_text ty hty
  rcases hdisp with hd | hd <;> simp [textPartPath, hty, hnt, hd]

theorem textPartLoop_nested (parts : List BodyStructure) :
    ∀ (j : Nat) (tpn : Int) (i : Nat) (child : BodyStructure) (subp : List Int),
      parts[i]? = some child → EqualFold child.MIMEType "multipart" = true →
      textPartPath child = (subp, true) →
      (∀ (k : Nat) (c : BodyStructure), k < i → parts[k]? = some c →
        EqualFold c.MIMEType "multipart" = true → (textPartPath c).2 = false) →
      textPartLoop parts j tpn = ((((j + i : Nat) : Int) + 1) :: subp, true) := by
  induction parts with
  | nil => intro j tpn i child subp hi; simp at hi
  | cons p rest ih =>
    intro j tpn i child subp hi hmp hsub hmin
    cases i with
    | zero =>
      simp only [List.getElem?_cons_zero, Option.some.injEq] at hi
      subst hi
      simp [textPartLoop, hmp, hsub]
    | succ i =>
      simp only [List.getElem?_cons_succ] at hi
      have hrest2 : ∀ tpn2, textPartLoop rest (j + 1) tpn2 = ((((j + (i + 1) : Nat) : Int) + 1) :: subp, true) := by
        intro tpn2
        have := ih (j + 1) tpn2 i child subp hi hmp hsub
          (fun k c hk hc hm => hmin (k + 1) c (by omega) (by simpa using hc) hm)
        rw [this]
        congr 2
        push_cast
        ring
      by_cases hpm : EqualFold p.MIMEType "multipart" = true
      · have hp := hmin 0 p (by omega) (by simp) hpm
        have hnt := equalFold_multipart_not_text _ hpm
        obtain ⟨x, hx⟩ : ∃ x, textPartPath p = (x, false) := ⟨(textPartPath p).1, by rw [← hp]⟩
        simp [textPartLoop, hpm, hx, hnt, hrest2]
      · simp only [Bool.not_eq_true] at hpm
        simp only [textPartLoop, hpm, Bool.false_eq_true, if_false]
        split <;> simp [hrest2]

theorem textPartPath_leaf (bs : BodyStructure)
    (hty : EqualFold bs.MIMEType "multipart" = false) :
    textPartPath bs =
      (if EqualFold bs.MIMEType "text" = true ∧
          (bs.Disposition = "" ∨ EqualFold bs.Disposition "inline" = true)
        then ([1], true) else ([], false)) := by
  obtain ⟨ty, sub, disp, fn, parts⟩ := bs
  simp only [BodyStructure.MIMEType, BodyStructure.Disposition] at hty ⊢
  by_cases hd : disp = ""
  · by_cases ht : EqualFold ty "text" = true <;> simp [textPartPath, hd, ht, hty]
  · by_cases hi : EqualFold disp "inline" = true
    · by_cases ht : EqualFold ty "text" = true <;> simp [textPartPath, hd, hi, ht, hty]
    · simp [textPartPath, hd, hi]

/-- C9: for a body structure whose type is not (case-insensitively)
"multipart", `textPartPath` returns `([1], true)` exactly when the type folds
to "text" and the disposition is empty or folds to "inline", whatever the
subtype, and `(nil, false)` in every other case. -/
theorem textPartPath_not_multipart (bs : BodyStructure)
    (hty : EqualFold bs.MIMEType "multipart" = false) :
    textPartPath bs =
        (if EqualFold bs.MIMEType "text" = true ∧
            (bs.Disposition = "" ∨ EqualFold bs.Disposition "inline" = true)
          then ([1], true) else ([], false)) ∧
      (textPartPath bs = ([1], true) ↔
        (EqualFold bs.MIMEType "text" = true ∧
          (bs.Disposition = "" ∨ EqualFold bs.Disposition "inline" = true))) := by
  refine ⟨textPartPath_leaf bs hty, ?_⟩
  rw [textPartPath_leaf bs hty]
  split <;> simp_all

/-- A message whose single part is text/plain selects the path `[1]`. -/
theorem textPartPath_not_multipart_witness :
    EqualFold (BodyStructure.mk "text" "plain" "" "" []).MIMEType "multipart" = false ∧
      textPartPath (.mk "text" "plain" "" "" []) = ([1], true) :=
  ⟨by decide,
    ((textPartPath_not_multipart (.mk "text" "plain" "" "" []) (by decide)).2).2
      ⟨by decide, Or.inl (by decide)⟩⟩

/-- C2: in a multipart body structure whose disposition is empty or "inline",
if child `i + 1` is the first child that is multipart and for which
`textPartPath` succeeds with `subp`, then `textPartPath` returns
`(i + 1) :: subp`, whatever the other children are. -/
theorem textPartPath_first_nested (bs child : BodyStructure) (i : Nat) (subp : List Int)
    (hty : EqualFold bs.MIMEType "multipart" = true)
    (hdisp : bs.Disposition = "" ∨ EqualFold bs.Disposition "inline" = true)
    (hi : bs.Parts[i]? = some child)
    (hchild : EqualFold child.MIMEType "multipart" = true)
    (hsub : textPartPath child = (subp, true))
    (hmin : ∀ (k : Nat) (c : BodyStructure), k < i → bs.Parts[k]? = some c →
      EqualFold c.MIMEType "multipart" = true → (textPartPath c).2 = false) :
    textPartPath bs = (((i : Int) + 1) :: subp, true) := by
  obtain ⟨ty, sub, disp, fn, parts⟩ := bs
  simp only [BodyStructure.MIMEType, BodyStructure.Disposition, BodyStructure.Parts] at *
  rw [textPartPath_multipart ty sub disp fn parts hty hdisp,
    textPartLoop_nested parts 0 (-1) i child subp hi hchild hsub hmin]
  simp

/-- The nested multipart/alternative with only text/html wins over the
text/plain sibling after it: the path is `[1, 1]`. -/
theorem textPartPath_first_nested_witness :
    textPartPath (.mk "multipart" "alternative" "" "" [.mk "text" "html" "" "" []]) = ([1], true) ∧
      textPartPath nestedFirstExample = ([1, 1], true) :=
  ⟨by decide,
    textPartPath_first_nested nestedFirstExample
      (.mk "multipart" "alternative" "" "" [.mk "text" "html" "" "" []]) 0 [1]
      (by decide) (Or.inl (by decide)) rfl (by decide) (by decide)
      (fun k _ hk => absurd hk (Nat.not_lt_zero k))⟩

theorem textPartLoop_cons (p : BodyStructure) (rest : List BodyStructure) (j : Nat) (tpn : Int)
    (hp : EqualFold p.MIMEType "multipart" = true → (textPartPath p).2 = false) :
    textPartLoop (p :: rest) j tpn =
      textPartLoop rest (j + 1)
        (if isTextPlain p = true then (j : Int) + 1
          else if isTextHTML p = true ∧ tpn < 0 then (j : Int) + 1 else tpn) := by
  by_cases hpm : EqualFold p.MIMEType "multipart" = true
  · have hnt := equalFold_multipart_not_text _ hpm
    have h2 := hp hpm
    obtain ⟨x, hx⟩ : ∃ x, textPartPath p = (x, false) := ⟨(textPartPath p).1, by rw [← h2]⟩
    simp [textPartLoop, hpm, hx, hnt, isTextPlain, isTextHTML]
  · simp only [Bool.not_eq_true] at hpm
    by_cases ht : EqualFold p.MIMEType "text" = true
    · by_cases hpl : ToLower p.MIMESubType = "plain"
      · simp [textPartLoop, hpm, ht, hpl, isTextPlain, isTextHTML]
      · by_cases hh : ToLower p.MIMESubType = "html"
        · by_cases hneg : tpn < 0 <;>
            simp [textPartLoop, hpm, ht, hpl, hh, hneg, isTextPlain, isTextHTML]
        · simp [textPartLoop, hpm, ht, hpl, hh, isTextPlain, isTextHTML]
    · simp [textPartLoop, hpm, ht, isTextPlain, isTextHTML]

/-- The loop when no nested multipart child yields a selection, for any
starting index `j` and recorded candidate `tpn`. -/
theorem textPartLoop_candidates (parts : List BodyStructure) :
    (∀ c ∈ parts, EqualFold c.MIMEType "multipart" = true → (textPartPath c).2 = false) →
    ∀ (j : Nat) (tpn : Int),
      ((∃ c ∈ parts, isTextPlain c = true) →
        ∃ m : Nat, textPartLoop parts j tpn = ([((j + m : Nat) : Int) + 1], true) ∧
          (∃ c, parts[m]? = some c ∧ isTextPlain c = true) ∧
          ∀ (k : Nat) (c : BodyStructure), m < k → parts[k]? = some c → isTextPlain c = false) ∧
      ((∀ c ∈ parts, isTextPlain c = false) → tpn < 0 → (∃ c ∈ parts, isTextHTML c = true) →
        ∃ m : Nat, textPartLoop parts j tpn = ([((j + m : Nat) : Int) + 1], true) ∧
          (∃ c, parts[m]? = some c ∧ isTextHTML c = true) ∧
          ∀ (k : Nat) (c : BodyStructure), k < m → parts[k]? = some c → isTextHTML c = false) ∧
      ((∀ c ∈ parts, isTextPlain c = false) → (0 ≤ tpn ∨ ∀ c ∈ parts, isTextHTML c = false) →
        textPartLoop parts j tpn = (if tpn > 0 then ([tpn], true) else ([], false))) := by
  induction parts with
  | nil =>
    intro _ j tpn
    refine ⟨?_, ?_, ?_⟩
    · rintro ⟨c, hc, _⟩; simp at hc
    · rintro _ _ ⟨c, hc, _⟩; simp at hc
    · intro _ _; simp [textPartLoop]
  | cons p rest ih =>
    intro hno j tpn
    have hstep := textPartLoop_cons p rest j tpn (hno p (by simp))
    have ihr := ih (fun c hc => hno c (List.mem_cons_of_mem _ hc))
    refine ⟨?_, ?_, ?_⟩
    · -- some child is text/plain
      intro hex
      by_cases hrest : ∃ c ∈ rest, isTextPlain c = true
      · obtain ⟨m, hm, ⟨c, hc, hcp⟩, hlast⟩ := (ihr (j + 1) _).1 hrest
        refine ⟨m + 1, ?_, ⟨c, by simpa using hc, hcp⟩, ?_⟩
        · rw [hstep, hm]; congr 2; push_cast; ring
        · intro k c2 hk hc2
          cases k with
          | zero => omega
          | succ k => exact hlast k c2 (by omega) (by simpa using hc2)
      · have hnone : ∀ c ∈ rest, isTextPlain c = false := by
          intro c hc
          cases hcp : isTextPlain c
          · rfl
          · exact absurd ⟨c, hc, hcp⟩ hrest
        have hp : isTextPlain p = true := by
          obtain ⟨c, hc, hcp⟩ := hex
          rcases List.mem_cons.1 hc with rfl | hc
          · exact hcp
          · rw [hnone c hc] at hcp; cases hcp
        refine ⟨0, ?_, ⟨p, by simp, hp⟩, ?_⟩
        · rw [hstep, (ihr (j + 1) _).2.2 hnone (Or.inl (by simp only [hp, if_true]; omega))]
          simp only [hp, if_true]
          rw [if_pos (by omega)]
          simp
        · intro k c2 hk hc2
          cases k with
          | zero => omega
          | succ k =>
            have : c2 ∈ rest := List.getElem?_mem (by simpa using hc2)
            exact hnone c2 this
    · -- no text/plain child, no candidate yet, some child is text/html
      intro hnp hneg hex
      have hp : isTextPlain p = false := hnp p (by simp)
      have hnr : ∀ c ∈ rest, isTextPlain c = false := fun c hc => hnp c (List.mem_cons_of_mem _ hc)
      by_cases hph : isTextHTML p = true
      · refine ⟨0, ?_, ⟨p, by simp, hph⟩, ?_⟩
        · rw [hstep, (ihr (j + 1) _).2.2 hnr (Or.inl (by simp only [hp, hph, hneg]; simp; omega))]
          simp only [hp, hph, hneg]
          simp only [Bool.false_eq_true, if_false, and_self, if_true]
          rw [if_pos (by omega)]
          simp
        · intro k c2 hk; omega
      · simp only [Bool.not_eq_true] at hph
        have hexr : ∃ c ∈ rest, isTextHTML c = true := by
          obtain ⟨c, hc, hch⟩ := hex
          rcases List.mem_cons.1 hc with rfl | hc
          · rw [hph] at hch; cases hch
          · exact ⟨c, hc, hch⟩
        have htpn : (if isTextPlain p = true then (j : Int) + 1
            else if isTextHTML p = true ∧ tpn < 0 then (j : Int) + 1 else tpn) = tpn := by
          simp [hp, hph]
        rw [htpn] at hstep
        obtain ⟨m, hm, ⟨c, hc, hch⟩, hfirst⟩ := (ihr (j + 1) tpn).2.1 hnr hneg hexr
        refine ⟨m + 1, ?_, ⟨c, by simpa using hc, hch⟩, ?_⟩
        · rw [hstep, hm]; congr 2; push_cast; ring
        · intro k c2 hk hc2
          cases k with
          | zero =>
            simp only [List.getElem?_cons_zero, Option.some.injEq] at hc2
            subst hc2; exact hph
          | succ k => exact hfirst k c2 (by omega) (by simpa using hc2)
    · -- no text/plain child, and a candidate is recorded or no child is text/html
      intro hnp hor
      have hp : isTextPlain p = false := hnp p (by simp)
      have hnr : ∀ c ∈ rest, isTextPlain c = false := fun c hc => hnp c (List.mem_cons_of_mem _ hc)
      have htpn : (if isTextPlain p = true then (j : Int) + 1
          else if isTextHTML p = true ∧ tpn < 0 then (j : Int) + 1 else tpn) = tpn := by
        rcases hor with h0 | hnh
        · have : ¬ tpn < 0 := by omega
          simp [hp, this]
        · simp [hp, hnh p (by simp)]
      rw [htpn] at hstep
      rw [hstep]
      refine (ihr (j + 1) tpn).2.2 hnr ?_
      rcases hor with h0 | hnh
      · exact Or.inl h0
      · exact Or.inr (fun c hc => hnh c (List.mem_cons_of_mem _ hc))

/-- C3: in a multipart body structure whose disposition is empty or "inline"
and none of whose multipart children yields a selection, `textPartPath` returns
the 1-based index of the last text/plain child when there is one, otherwise the
1-based index of the first text/html child when there is one, otherwise
`(nil, false)`. The index `m` below is 0-based, the path holds `m + 1`. -/
theorem textPartPath_candidates (bs : BodyStructure)
    (hty : EqualFold bs.MIMEType "multipart" = true)
    (hdisp : bs.Disposition = "" ∨ EqualFold bs.Disposition "inline" = true)
    (hno : ∀ c ∈ bs.Parts, EqualFold c.MIMEType "multipart" = true → (textPartPath c).2 = false) :
    ((∃ c ∈ bs.Parts, isTextPlain c = true) →
      ∃ m : Nat, textPartPath bs = ([(m : Int) + 1], true) ∧
        (∃ c, bs.Parts[m]? = some c ∧ isTextPlain c = true) ∧
        ∀ (k : Nat) (c : BodyStructure), m < k → bs.Parts[k]? = some c → isTextPlain c = false) ∧
    ((∀ c ∈ bs.Parts, isTextPlain c = false) → (∃ c ∈ bs.Parts, isTextHTML c = true) →
      ∃ m : Nat, textPartPath bs = ([(m : Int) + 1], true) ∧
        (∃ c, bs.Parts[m]? = some c ∧ isTextHTML c = true) ∧
        ∀ (k : Nat) (c : BodyStructure), k < m → bs.Parts[k]? = some c → isTextHTML c = false) ∧
    ((∀ c ∈ bs.Parts, isTextPlain c = false) → (∀ c ∈ bs.Parts, isTextHTML c = false) →
      textPartPath bs = ([], false)) := by
  obtain ⟨ty, sub, disp, fn, parts⟩ := bs
  simp only [BodyStructure.MIMEType, BodyStructure.Disposition, BodyStructure.Parts] at *
  rw [textPartPath_multipart ty sub disp fn parts hty hdisp]
  have h := textPartLoop_candidates parts hno 0 (-1)
  simp only [Nat.zero_add] at h
  refine ⟨h.1, fun hnp hex => h.2.1 hnp (by omega) hex, fun hnp hnh => ?_⟩
  rw [h.2.2 hnp (Or.inr hnh)]
  simp

/-- Plain wins over html in either order: text/plain then text/html gives
`[1]`, text/html then text/plain gives `[2]`. -/
theorem textPartPath_plain_html_orders :
    textPartPath plainThenHTML = ([1], true) ∧ textPartPath htmlThenPlain = ([2], true) := by
  decide

/-- The text/html then text/plain structure: the last text/plain child is
selected. -/
theorem textPartPath_candidates_witness :
    ∃ m : Nat, textPartPath htmlThenPlain = ([(m : Int) + 1], true) ∧
      (∃ c, htmlThenPlain.Parts[m]? = some c ∧ isTextPlain c = true) ∧
      ∀ (k : Nat) (c : BodyStructure), m < k → htmlThenPlain.Parts[k]? = some c →
        isTextPlain c = false :=
  (textPartPath_candidates htmlThenPlain (by decide) (Or.inl (by decide))
    (by
      intro c hc
      simp only [htmlThenPlain, BodyStructure.Parts, List.mem_cons, List.mem_singleton,
        List.not_mem_nil, or_false] at hc
      rcases hc with rfl | rfl <;> decide)).1
    ⟨.mk "text" "plain" "" "" [], by simp [htmlThenPlain, BodyStructure.Parts], by decide⟩

/-- C1, evaluated on a multipart/mixed structure whose only child is a
text/plain attachment: `textPartPath` succeeds with `[1]`, and the part that
`[1]` addresses is that attachment. -/
theorem textPartPath_selects_attachment_child :
    textPartPath attachmentChild = ([1], true) ∧
      (partAt attachmentChild [1]).map
          (fun b => (b.Disposition, b.MIMEType, b.MIMESubType)) =
        some ("attachment", "text", "plain") := by
  decide

/-! ## `imapPartTree` -/

mutual
/-- Induction on body structures: a property that holds of a structure as
soon as it holds of all its parts holds of every structure. -/
theorem BodyStructure.parts_induction {P : BodyStructure → Prop}
    (h : ∀ (ty sub disp fn : String) (parts : List BodyStructure),
      (∀ c ∈ parts, P c) → P (.mk ty sub disp fn parts)) :
    ∀ bs : BodyStructure, P bs
  | .mk ty sub disp fn parts => h ty sub disp fn parts (BodyStructure.parts_induction_list h parts)
theorem BodyStructure.parts_induction_list {P : BodyStructure → Prop}
    (h : ∀ (ty sub disp fn : String) (parts : List BodyStructure),
      (∀ c ∈ parts, P c) → P (.mk ty sub disp fn parts)) :
    ∀ (parts : List BodyStructure), ∀ c ∈ parts, P c
  | [], c, hc => by simp at hc
  | p :: rest, c, hc => by
    rcases List.mem_cons.1 hc with hcp | hcr
    · rw [hcp]; exact BodyStructure.parts_induction h p
    · exact BodyStructure.parts_induction_list h rest c hcr
end

theorem imapPartTreeLoop_length (parts : List BodyStructure) :
    ∀ (path : List Int) (j : Nat), (imapPartTreeLoop parts path j).length = parts.length := by
  induction parts with
  | nil => intro path j; simp [imapPartTreeLoop]
  | cons p rest ih => intro path j; simp [imapPartTreeLoop, ih]

theorem imapPartTreeLoop_getElem? (parts : List BodyStructure) :
    ∀ (path : List Int) (j i : Nat),
      (imapPartTreeLoop parts path j)[i]? =
        (parts[i]?).map (fun b => imapPartTree b (path ++ [((j + i : Nat) : Int) + 1])) := by
  induction parts with
  | nil => intro path j i; simp [imapPartTreeLoop]
  | cons p rest ih =>
    intro path j i
    cases i with
    | zero => simp [imapPartTreeLoop]
    | succ i =>
      simp only [imapPartTreeLoop, List.getElem?_cons_succ, ih]
      have : ((j + 1 + i : Nat) : Int) = ((j + (i + 1) : Nat) : Int) := by push_cast; ring
      rw [this]

theorem imapPartTree_path (bs : BodyStructure) (path : List Int) :
    (imapPartTree bs path).Path =
      (if EqualFold bs.MIMEType "multipart" = false ∧ path = [] then [1] else path) := by
  obtain ⟨ty, sub, disp, fn, parts⟩ := bs
  cases path <;> cases h : EqualFold ty "multipart" <;>
    simp [imapPartTree, IMAPPartNode.Path, BodyStructure.MIMEType, h]

theorem imapPartTree_children (bs : BodyStructure) (path : List Int) :
    (imapPartTree bs path).Children =
      imapPartTreeLoop bs.Parts (imapPartTree bs path).Path 0 := by
  obtain ⟨ty, sub, disp, fn, parts⟩ := bs
  simp [imapPartTree, IMAPPartNode.Children, IMAPPartNode.Path, BodyStructure.Parts]

theorem imapPartTree_mirrors_any : ∀ (bs : BodyStructure) (path : List Int),
    Mirrors bs (imapPartTree bs path) := by
  intro bs
  induction bs using BodyStructure.parts_induction with
  | h ty sub disp fn parts ih =>
    intro path
    refine Mirrors.node _ _ ?_ ?_ ?_ ?_ ?_
    · simp [imapPartTree, IMAPPartNode.MIMEType, BodyStructure.MIMEType, BodyStructure.MIMESubType]
    · simp [imapPartTree, IMAPPartNode.Filename, BodyStructure.Filename]
    · rw [imapPartTree_children, imapPartTreeLoop_length]
    · intro i c hc
      rw [imapPartTree_children, imapPartTreeLoop_getElem?] at hc
      cases hb : (BodyStructure.mk ty sub disp fn parts).Parts[i]? with
      | none => simp [hb] at hc
      | some b =>
        simp only [hb, Option.map_some', Option.some.injEq, Nat.zero_add] at hc
        subst hc
        rw [imapPartTree_path b]
        simp
    · intro i b c hb hc
      rw [imapPartTree_children, imapPartTreeLoop_getElem?, hb] at hc
      simp only [Option.map_some', Option.some.injEq] at hc
      subst hc
      exact ih b (List.getElem?_mem hb) _

/-- C4: `imapPartTree bs nil`, the tree `PartTree` returns, mirrors `bs`: every
node has as many children as the corresponding part has `Parts`, in the same
order; the root path is `[1]` when `bs` is not multipart and empty when it is;
child `i` (1-based) of a node with path `p` has path `p` followed by `i`. -/
theorem imapPartTree_mirrors (bs : BodyStructure) :
    PartTree (some bs) = some (imapPartTree bs []) ∧
      Mirrors bs (imapPartTree bs []) ∧
      (imapPartTree bs []).Path =
        (if EqualFold bs.MIMEType "multipart" = true then [] else [1]) ∧
      (imapPartTree bs []).Children.length = bs.Parts.length ∧
      (imapPartTree bs []).Children.map IMAPPartNode.Path =
        (List.range bs.Parts.length).map
          (fun (i : Nat) => (imapPartTree bs []).Path ++ [(i : Int) + 1]) := by
  refine ⟨rfl, imapPartTree_mirrors_any bs [], ?_, ?_, ?_⟩
  · rw [imapPartTree_path]
    cases EqualFold bs.MIMEType "multipart" <;> simp
  · rw [imapPartTree_children, imapPartTreeLoop_length]
  · apply List.ext_getElem?
    intro i
    rw [imapPartTree_children, List.getElem?_map, imapPartTreeLoop_getElem?,
      List.getElem?_map]
    cases hb : bs.Parts[i]? with
    | none =>
      have hge := List.getElem?_eq_none_iff.1 hb
      have hr : (List.range bs.Parts.length)[i]? = none :=
        List.getElem?_eq_none_iff.2 (by simpa using hge)
      simp only [Option.map_none', hr]
    | some b =>
      have hlt : i < bs.Parts.length := by
        by_contra hge
        rw [List.getElem?_eq_none_iff.2 (Nat.not_lt.1 hge)] at hb
        cases hb
      simp only [Option.map_some', List.getElem?_range hlt, Nat.zero_add]
      rw [imapPartTree_path b]
      simp

/-- A single text/plain part gives a root with path `[1]` and no children; a
multipart root with three children gives them the paths `[1]`, `[2]`, `[3]`. -/
theorem imapPartTree_examples :
    (imapPartTree (.mk "text" "plain" "" "" []) []).Path = [1] ∧
      (imapPartTree (.mk "text" "plain" "" "" []) []).Children.length = 0 ∧
      (imapPartTree threeChildren []).Path = [] ∧
      (imapPartTree threeChildren []).Children.map IMAPPartNode.Path = [[1], [2], [3]] := by
  decide

/-! ## The selected part is a text node of the part tree -/

theorem toLowerRune_of_foldEqRune (a b : Char) (h : foldEqRune a b = true) (hb : plainLower b) :
    toLowerRune a = b := by
  obtain ⟨hb1, hb2, hk, hs, h3, h4⟩ := hb
  have hlow : asciiLower a = b → toLowerRune a = b := by
    intro hl
    unfold asciiLower at hl
    unfold toLowerRune
    split at hl
    · rename_i hcap; rw [if_pos hcap]; exact hl
    · rw [hl]; exact hb2
  simp only [foldEqRune, Bool.or_eq_true, Bool.and_eq_true, beq_iff_eq, hb1] at h
  rcases h with ((((h | h) | h) | h) | h) | h
  · rw [h]; exact hb2
  · exact hlow h
  · exact absurd h.2 hk
  · exact absurd h.1 h3
  · exact absurd h.2 hs
  · exact absurd h.1 h4

theorem map_toLowerRune_of_equalFoldRunes : ∀ (s t : List Char),
    equalFoldRunes s t = true → (∀ b ∈ t, plainLower b) → s.map toLowerRune = t
  | [], [], _, _ => rfl
  | [], _ :: _, h, _ => by simp [equalFoldRunes] at h
  | _ :: _, [], h, _ => by simp [equalFoldRunes] at h
  | a :: s, b :: t, h, hb => by
    simp only [equalFoldRunes, Bool.and_eq_true] at h
    simp only [List.map_cons, List.cons.injEq]
    exact ⟨toLowerRune_of_foldEqRune a b h.1 (hb b (by simp)),
      map_toLowerRune_of_equalFoldRunes s t h.2 (fun c hc => hb c (List.mem_cons_of_mem _ hc))⟩

theorem imapPartTree_isText (b : BodyStructure) (path : List Int)
    (ht : EqualFold b.MIMEType "text" = true) : (imapPartTree b path).IsText = true := by
  obtain ⟨ty, sub, disp, fn, parts⟩ := b
  simp only [BodyStructure.MIMEType] at ht
  have hty : ty.data.map toLowerRune = "text".data :=
    map_toLowerRune_of_equalFoldRunes _ _ ht (by decide)
  have hpre : ("text/".data).isPrefixOf ("text/".data ++ (sub.data.map toLowerRune).map toLowerRune) = true := by
    rw [List.isPrefixOf_iff_prefix]
    exact List.prefix_append _ _
  simp only [imapPartTree, IMAPPartNode.IsText, IMAPPartNode.MIMEType, HasPrefix, ToLower,
    String.data_append, List.map_append, hty]
  exact hpre

theorem imapPartTree_text_prefix (b : BodyStructure) (path : List Int)
    (ht : EqualFold b.MIMEType "text" = true) :
    HasPrefix (imapPartTree b path).MIMEType "text/" = true := by
  obtain ⟨ty, sub, disp, fn, parts⟩ := b
  simp only [BodyStructure.MIMEType] at ht
  have hty : ty.data.map toLowerRune = "text".data :=
    map_toLowerRune_of_equalFoldRunes _ _ ht (by decide)
  have hpre : ("text/".data).isPrefixOf ("text/".data ++ sub.data.map toLowerRune) = true := by
    rw [List.isPrefixOf_iff_prefix]
    exact List.prefix_append _ _
  simp only [imapPartTree, IMAPPartNode.MIMEType, HasPrefix, ToLower,
    String.data_append, List.map_append, hty]
  exact hpre

/-- Where a successful result of the loop comes from: a nested multipart
child, the candidate recorded before, or a child of type text. -/
theorem textPartLoop_result (parts : List BodyStructure) :
    ∀ (j : Nat) (tpn : Int) (p : List Int), textPartLoop parts j tpn = (p, true) →
      (∃ (i : Nat) (child : BodyStructure) (sub : List Int), parts[i]? = some child ∧
          EqualFold child.MIMEType "multipart" = true ∧ textPartPath child = (sub, true) ∧
          p = (((j + i : Nat) : Int) + 1) :: sub) ∨
        (0 < tpn ∧ p = [tpn]) ∨
        (∃ (i : Nat) (c : BodyStructure), parts[i]? = some c ∧
          EqualFold c.MIMEType "text" = true ∧ p = [((j + i : Nat) : Int) + 1]) := by
  induction parts with
  | nil =>
    intro j tpn p h
    by_cases ht : tpn > 0
    · simp only [textPartLoop, if_pos ht, Prod.mk.injEq, and_true] at h
      exact Or.inr (Or.inl ⟨ht, h.symm⟩)
    · simp [textPartLoop, if_neg ht] at h
  | cons q rest ih =>
    intro j tpn p h
    have shift : ∀ tpn2, textPartLoop rest (j + 1) tpn2 = (p, true) →
        (tpn2 = tpn ∨ (tpn2 = (j : Int) + 1 ∧ EqualFold q.MIMEType "text" = true)) →
        (∃ (i : Nat) (child : BodyStructure) (sub : List Int), (q :: rest)[i]? = some child ∧
          EqualFold child.MIMEType "multipart" = true ∧ textPartPath child = (sub, true) ∧
          p = (((j + i : Nat) : Int) + 1) :: sub) ∨
        (0 < tpn ∧ p = [tpn]) ∨
        (∃ (i : Nat) (c : BodyStructure), (q :: rest)[i]? = some c ∧
          EqualFold c.MIMEType "text" = true ∧ p = [((j + i : Nat) : Int) + 1]) := by
      intro tpn2 h2 hor
      rcases ih (j + 1) tpn2 p h2 with ⟨i, child, sub, hi, hm, hs, hp⟩ | ⟨hpos, hp⟩ | ⟨i, c, hi, ht, hp⟩
      · refine Or.inl ⟨i + 1, child, sub, by simpa using hi, hm, hs, ?_⟩
        rw [hp]; congr 1; push_cast; ring
      · rcases hor with he | ⟨he, hqt⟩
        · rw [he] at hpos hp; exact Or.inr (Or.inl ⟨hpos, hp⟩)
        · refine Or.inr (Or.inr ⟨0, q, by simp, hqt, ?_⟩)
          rw [hp, he]; simp
      · refine Or.inr (Or.inr ⟨i + 1, c, by simpa using hi, ht, ?_⟩)
        rw [hp]; congr 1; push_cast; ring
    by_cases hqm : EqualFold q.MIMEType "multipart" = true
    · have hnt := equalFold_multipart_not_text _ hqm
      cases hx : textPartPath q with
      | mk sub ok =>
        cases ok with
        | true =>
          simp only [textPartLoop, hqm, if_true, hx, Prod.mk.injEq, and_true] at h
          exact Or.inl ⟨0, q, sub, by simp, hqm, hx, by rw [← h]; simp⟩
        | false =>
          simp only [textPartLoop, hqm, if_true, hx, hnt, Bool.false_eq_true, not_false_eq_true] at h
          exact shift tpn h (Or.inl rfl)
    · simp only [Bool.not_eq_true] at hqm
      by_cases hqt : EqualFold q.MIMEType "text" = true
      · simp only [textPartLoop, hqm, Bool.false_eq_true, if_false, hqt, not_true_eq_false] at h
        refine shift _ h ?_
        split_ifs <;> simp [hqt]
      · simp only [textPartLoop, hqm, Bool.false_eq_true, if_false, hqt, not_false_eq_true,
          if_true] at h
        exact shift tpn h (Or.inl rfl)

theorem treeNodes_root (n : IMAPPartNode) : n ∈ treeNodes n := by
  cases n; simp [treeNodes]

theorem forestNodes_mem (cs : List IMAPPartNode) :
    ∀ (c n : IMAPPartNode), c ∈ cs → n ∈ treeNodes c → n ∈ forestNodes cs := by
  induction cs with
  | nil => intro c n hc; simp at hc
  | cons d rest ih =>
    intro c n hc hn
    simp only [forestNodes, List.mem_append]
    rcases List.mem_cons.1 hc with rfl | hc
    · exact Or.inl hn
    · exact Or.inr (ih c n hc hn)

theorem treeNodes_child (t c n : IMAPPartNode) (hc : c ∈ t.Children) (hn : n ∈ treeNodes c) :
    n ∈ treeNodes t := by
  cases t with
  | mk p ty f cs =>
    simp only [treeNodes, List.mem_cons]
    exact Or.inr (forestNodes_mem cs c n hc hn)

theorem imapPartTree_child_mem (bs child : BodyStructure) (path : List Int) (i : Nat)
    (hi : bs.Parts[i]? = some child) :
    imapPartTree child ((imapPartTree bs path).Path ++ [(i : Int) + 1]) ∈
      (imapPartTree bs path).Children := by
  apply List.getElem?_mem (n := i)
  rw [imapPartTree_children, imapPartTreeLoop_getElem?, hi]
  simp

/-- The selection inside a multipart structure built under the path `pre`. -/
theorem textPartPath_in_tree_multipart : ∀ (bs : BodyStructure) (pre p : List Int),
    EqualFold bs.MIMEType "multipart" = true → textPartPath bs = (p, true) →
    ∃ n ∈ treeNodes (imapPartTree bs pre),
      n.Path = pre ++ p ∧ n.IsText = true ∧ HasPrefix n.MIMEType "text/" = true := by
  intro bs
  induction bs using BodyStructure.parts_induction with
  | h ty sub disp fn parts ih =>
    intro pre p hm hp
    have hroot : (imapPartTree (.mk ty sub disp fn parts) pre).Path = pre := by
      rw [imapPartTree_path]; simp [hm]
    simp only [BodyStructure.MIMEType] at hm
    have hloop : textPartLoop parts 0 (-1) = (p, true) := by
      by_cases hd : disp ≠ "" ∧ ¬ EqualFold disp "inline" = true
      · simp [textPartPath, hd] at hp
      · have hd2 : disp = "" ∨ EqualFold disp "inline" = true := by
          by_cases h1 : disp = ""
          · exact Or.inl h1
          · right
            by_contra h2
            exact hd ⟨h1, h2⟩
        rw [textPartPath_multipart ty sub disp fn parts hm hd2] at hp
        exact hp
    rcases textPartLoop_result parts 0 (-1) p hloop with
      ⟨i, child, subp, hi, hcm, hs, hpe⟩ | ⟨hpos, _⟩ | ⟨i, c, hi, hct, hpe⟩
    · obtain ⟨n, hn, hnp, hnt⟩ := ih child (List.getElem?_mem hi) (pre ++ [(i : Int) + 1]) subp hcm hs
      have hmem := imapPartTree_child_mem (.mk ty sub disp fn parts) child pre i hi
      rw [hroot] at hmem
      refine ⟨n, treeNodes_child _ _ n hmem hn, ?_, hnt⟩
      rw [hnp, hpe]; simp
    · omega
    · have hmem := imapPartTree_child_mem (.mk ty sub disp fn parts) c pre i hi
      rw [hroot] at hmem
      refine ⟨_, treeNodes_child _ _ _ hmem (treeNodes_root _), ?_, imapPartTree_isText c _ hct,
        imapPartTree_text_prefix c _ hct⟩
      rw [imapPartTree_path, hpe]; simp

/-- C10: when `textPartPath bs` succeeds with `p`, the tree `imapPartTree bs nil`
contains a node whose `Path` is `p`; that node is a text node (`IsText` is
true, its `MIMEType` starts with "text/"), and its `PathString` is the string
`TextPartName` returns. -/
theorem textPartPath_in_tree (bs : BodyStructure) (p : List Int)
    (h : textPartPath bs = (p, true)) :
    ∃ n ∈ treeNodes (imapPartTree bs []),
      n.Path = p ∧ n.IsText = true ∧ HasPrefix n.MIMEType "text/" = true ∧
        n.PathString = TextPartName (some bs) := by
  have hname : TextPartName (some bs) = pathString p := by simp [TextPartName, h]
  by_cases hm : EqualFold bs.MIMEType "multipart" = true
  · obtain ⟨n, hn, hnp, hnt⟩ := textPartPath_in_tree_multipart bs [] p hm h
    simp only [List.nil_append] at hnp
    exact ⟨n, hn, hnp, hnt.1, hnt.2, by rw [hname, IMAPPartNode.PathString, hnp]⟩
  · simp only [Bool.not_eq_true] at hm
    have h9 := (textPartPath_leaf bs hm)
    rw [h] at h9
    by_cases hc : EqualFold bs.MIMEType "text" = true ∧
        (bs.Disposition = "" ∨ EqualFold bs.Disposition "inline" = true)
    · rw [if_pos hc] at h9
      have hp : p = [1] := by simpa using h9
      have hpath : (imapPartTree bs []).Path = p := by
        rw [imapPartTree_path, hp]; simp [hm]
      exact ⟨_, treeNodes_root _, hpath, imapPartTree_isText bs [] hc.1,
        imapPartTree_text_prefix bs [] hc.1, by rw [hname, IMAPPartNode.PathString, hpath]⟩
    · rw [if_neg hc] at h9
      simp at h9

/-- The nested example: the selected path `[1, 1]` names a text node of the
part tree. -/
theorem textPartPath_in_tree_witness :
    textPartPath nestedFirstExample = ([1, 1], true) ∧
      ∃ n ∈ treeNodes (imapPartTree nestedFirstExample []),
        n.Path = [1, 1] ∧ n.IsText = true ∧ HasPrefix n.MIMEType "text/" = true ∧
          n.PathString = TextPartName (some nestedFirstExample) :=
  ⟨by decide, textPartPath_in_tree nestedFirstExample [1, 1] (by decide)⟩

/-! ## `listMessages`: the reversal -/

theorem swapAt_length {α : Type} (l : List α) (i j : Nat) : (swapAt l i j).length = l.length := by
  unfold swapAt
  split <;> simp

theorem swapAt_getElem? {α : Type} (l : List α) (i j m : Nat) (hi : i < l.length)
    (hj : j < l.length) :
    (swapAt l i j)[m]? = if m = j then l[i]? else if m = i then l[j]? else l[m]? := by
  unfold swapAt
  rw [List.getElem?_eq_getElem hi, List.getElem?_eq_getElem hj]
  simp only [List.getElem?_set, List.length_set]
  by_cases h1 : m = j
  · subst h1; simp [hi, hj]
  · by_cases h2 : m = i
    · subst h2
      rw [if_neg (Ne.symm h1), if_neg h1]
      simp [hj, hi]
    · rw [if_neg (Ne.symm h1), if_neg (Ne.symm h2), if_neg h1, if_neg h2]

/-- The loop invariant: when `i + 1 = k` is still to be processed, the positions
`k .. len - 1 - k` of the working list hold the original elements reversed and
the other positions are untouched. -/
theorem reverseLoop_invariant {α : Type} (l : List α) :
    ∀ (k : Nat) (w : List α), k ≤ l.length / 2 → w.length = l.length →
      (∀ m : Nat, w[m]? = if k ≤ m ∧ m + k < l.length then l[l.length - 1 - m]? else l[m]?) →
      reverseLoop k w = l.reverse := by
  intro k
  induction k with
  | zero =>
    intro w _ hlen hw
    simp only [reverseLoop]
    apply List.ext_getElem?
    intro m
    rw [hw m]
    by_cases hm : m < l.length
    · rw [if_pos ⟨Nat.zero_le _, by omega⟩, List.getElem?_reverse hm]
    · rw [if_neg (by omega), List.getElem?_eq_none_iff.2 (by omega),
        List.getElem?_eq_none_iff.2 (by simp; omega)]
  | succ k ih =>
    intro w hk hlen hw
    simp only [reverseLoop]
    have hk1 : k < w.length := by omega
    have hk2 : w.length - 1 - k < w.length := by omega
    apply ih _ (by omega) (by rw [swapAt_length, hlen])
    intro m
    rw [swapAt_getElem? w k (w.length - 1 - k) m hk1 hk2, hw k, hw (w.length - 1 - k), hw m, hlen]
    by_cases h1 : m = l.length - 1 - k
    · subst h1
      rw [if_pos rfl, if_neg (by omega), if_pos (by omega)]
      congr 1; omega
    · rw [if_neg h1]
      by_cases h2 : m = k
      · subst h2
        rw [if_pos rfl, if_neg (by omega), if_pos (by omega)]
      · rw [if_neg h2]
        by_cases h3 : k + 1 ≤ m ∧ m + (k + 1) < l.length
        · rw [if_pos h3, if_pos (by omega)]
        · rw [if_neg h3, if_neg (by omega)]

theorem reverseInPlace_eq_reverse {α : Type} (l : List α) : reverseInPlace l = l.reverse := by
  unfold reverseInPlace
  apply reverseLoop_invariant l (l.length / 2) l (Nat.le_refl _) rfl
  intro m
  by_cases h : l.length / 2 ≤ m ∧ m + l.length / 2 < l.length
  · rw [if_pos h]
    congr 1; omega
  · rw [if_neg h]

/-- C6: on success `listMessages` returns exactly the reverse of the list the
fetch delivered: same length, element `i` is element `len - 1 - i` of the
delivery. -/
theorem listMessages_reverses {Msg : Type} (conn : Client Msg) (page : Int) (delivered : List Msg)
    (hsel : conn.selectErr = none) (hto : 0 < pageTo conn.Messages page)
    (hf : conn.Fetch (toUint32 (pageFrom conn.Messages page))
      (toUint32 (pageTo conn.Messages page)) = (delivered, none)) :
    (listMessages conn page).err = none ∧
      (listMessages conn page).msgs = delivered.reverse ∧
      (listMessages conn page).msgs.length = delivered.length ∧
      ∀ i : Nat, i < delivered.length →
        (listMessages conn page).msgs[i]? = delivered[delivered.length - 1 - i]? := by
  have hres : listMessages conn page =
      ⟨delivered.reverse, none,
        [(toUint32 (pageFrom conn.Messages page), toUint32 (pageTo conn.Messages page))]⟩ := by
    simp only [listMessages, hsel, if_neg (not_le.2 hto), hf, reverseInPlace_eq_reverse]
  rw [hres]
  refine ⟨rfl, rfl, by simp, fun i hi => ?_⟩
  exact List.getElem?_reverse hi

/-- A mailbox of three messages delivered as 1, 2, 3 is listed as 3, 2, 1. -/
theorem listMessages_reverses_witness :
    (listMessages (mailboxOf 3) 0).err = none ∧
      (listMessages (mailboxOf 3) 0).msgs = [3, 2, 1] :=
  ⟨(listMessages_reverses (mailboxOf 3) 0 [1, 2, 3] rfl (by decide) (by decide)).1,
    (listMessages_reverses (mailboxOf 3) 0 [1, 2, 3] rfl (by decide) (by decide)).2.1⟩

/-! ## `listMessages`: the page window -/

theorem wrapInt_of_range (x : Int) (h1 : -2 ^ 63 ≤ x) (h2 : x < 2 ^ 63) : wrapInt x = x := by
  unfold wrapInt
  omega

theorem toUint32_of_range (x : Int) (h1 : 0 ≤ x) (h2 : x < 2 ^ 32) : toUint32 x = x.toNat := by
  unfold toUint32
  congr 1
  omega

/-- The page window as long as no 64-bit `int` wraps around: for a `uint32`
message count `n` and a page `page ≥ 0` with `n - 50 * page - 49 ≥ -2 ^ 63`,
`to = n - 50 * page` and `from = max 1 (to - 49)`; when `to ≤ 0` the result is
empty, without error and without fetch; otherwise exactly the range
`from .. to` is fetched, with `1 ≤ from ≤ to ≤ n`; and page 0 of a non-empty
mailbox fetches the `min n 50` highest sequence numbers. -/
theorem listMessages_window {Msg : Type} (conn : Client Msg) (page : Int)
    (hsel : conn.selectErr = none) (hn : conn.Messages < 2 ^ 32) (h0 : 0 ≤ page)
    (hb : 50 * page + 49 ≤ 2 ^ 63 + (conn.Messages : Int)) :
    pageTo conn.Messages page = (conn.Messages : Int) - 50 * page ∧
      pageFrom conn.Messages page = max 1 (pageTo conn.Messages page - 49) ∧
      (pageTo conn.Messages page ≤ 0 → listMessages conn page = ⟨[], none, []⟩) ∧
      (0 < pageTo conn.Messages page →
        (listMessages conn page).fetches =
            [((pageFrom conn.Messages page).toNat, (pageTo conn.Messages page).toNat)] ∧
          1 ≤ pageFrom conn.Messages page ∧
          pageFrom conn.Messages page ≤ pageTo conn.Messages page ∧
          pageTo conn.Messages page ≤ (conn.Messages : Int)) ∧
      (page = 0 → 1 ≤ conn.Messages →
        pageTo conn.Messages page = (conn.Messages : Int) ∧
          pageTo conn.Messages page - pageFrom conn.Messages page + 1 =
            ((min conn.Messages 50 : Nat) : Int)) := by
  have hn2 : (conn.Messages : Int) < 2 ^ 32 := by exact_mod_cast hn
  have hto : pageTo conn.Messages page = (conn.Messages : Int) - 50 * page := by
    unfold pageTo messagesPerPage
    by_cases hp : page * 50 < 2 ^ 63
    · rw [wrapInt_of_range (page * 50) (by omega) hp,
        wrapInt_of_range ((conn.Messages : Int) - page * 50) (by omega) (by omega)]
      ring
    · unfold wrapInt
      omega
  have hfrom : pageFrom conn.Messages page = max 1 (pageTo conn.Messages page - 49) := by
    unfold pageFrom messagesPerPage
    rw [hto]
    have hw : wrapInt (wrapInt ((conn.Messages : Int) - 50 * page - 50) + 1) =
        (conn.Messages : Int) - 50 * page - 49 := by
      unfold wrapInt
      omega
    simp only [hw]
    split <;> omega
  refine ⟨hto, hfrom, ?_, ?_, ?_⟩
  · intro hle
    simp only [listMessages, hsel, if_pos hle]
  · intro hpos
    have h1 : 1 ≤ pageFrom conn.Messages page := by rw [hfrom]; omega
    have h2 : pageFrom conn.Messages page ≤ pageTo conn.Messages page := by rw [hfrom]; omega
    have h3 : pageTo conn.Messages page ≤ (conn.Messages : Int) := by rw [hto]; omega
    refine ⟨?_, h1, h2, h3⟩
    have hu1 := toUint32_of_range (pageFrom conn.Messages page) (by omega) (by omega)
    have hu2 := toUint32_of_range (pageTo conn.Messages page) (by omega) (by omega)
    simp only [listMessages, hsel, if_neg (not_le.2 hpos), hu1, hu2]
    split <;> rfl
  · intro hp hn1
    subst hp
    rw [hfrom, hto]
    refine ⟨by ring, ?_⟩
    omega

/-- Page 0 of a mailbox of 120 messages fetches the range 71 .. 120. -/
theorem listMessages_window_witness :
    (listMessages (mailboxOf 120) 0).fetches = [(71, 120)] := by
  have h := listMessages_window (mailboxOf 120) 0 rfl (by norm_num [mailboxOf]) (by norm_num)
    (by norm_num [mailboxOf])
  have hto : pageTo (mailboxOf 120).Messages 0 = 120 := by rw [h.1]; norm_num [mailboxOf]
  have hfrom : pageFrom (mailboxOf 120).Messages 0 = 71 := by rw [h.2.1, hto]; norm_num
  have hf := (h.2.2.2.1 (by rw [hto]; norm_num)).1
  rw [hf, hto, hfrom]
  rfl

/-- C5, evaluated at the page index `2 ^ 63 - 2` on an empty mailbox: the
product `page * 50` wraps around to `-100`, so `to` is `100` and `from` is
`51`, and the range 51 .. 100 is fetched, although `n - 50 * page` is
negative. -/
theorem listMessages_page_overflow :
    pageTo 0 (2 ^ 63 - 2) = 100 ∧ pageFrom 0 (2 ^ 63 - 2) = 51 ∧
      (listMessages (mailboxOf 0) (2 ^ 63 - 2)).fetches = [(51, 100)] ∧
      (0 : Int) - 50 * (2 ^ 63 - 2) < 0 := by
  have h1 : pageTo 0 (2 ^ 63 - 2) = 100 := by
    norm_num [pageTo, wrapInt, messagesPerPage]
  have h2 : pageFrom 0 (2 ^ 63 - 2) = 51 := by
    simp only [pageFrom, h1]
    norm_num [wrapInt, messagesPerPage]
  refine ⟨h1, h2, ?_, by norm_num⟩
  simp only [listMessages, mailboxOf, h1, h2]
  norm_num [toUint32]
  exact ⟨rfl, rfl⟩

/-! ## The connection pool -/

theorem putLoop_ok {Conn : Type} (pool : ConnPool Conn) :
    ∀ (draws : List (Except String String)) (token : String),
      putLoop pool draws = some (.ok token) → pool.conns token = none := by
  intro draws
  induction draws with
  | nil => intro token h; simp [putLoop] at h
  | cons d rest ih =>
    intro token h
    cases d with
    | error e => simp [putLoop] at h
    | ok t =>
      cases hc : pool.conns t with
      | none =>
        simp only [putLoop, hc, Option.isSome_none, Bool.false_eq_true, if_false,
          Option.some.injEq, Except.ok.injEq] at h
        rw [← h]; exact hc
      | some c =>
        simp only [putLoop, hc, Option.isSome_some, if_true] at h
        exact ih token h

/-- The loop of `Put` ends as soon as the generator fails or draws a token
that is not a key of the pool. -/
theorem putLoop_returns {Conn : Type} (pool : ConnPool Conn) :
    ∀ (draws : List (Except String String)),
      ((∃ e, Except.error e ∈ draws) ∨ (∃ t, Except.ok t ∈ draws ∧ pool.conns t = none)) →
      (putLoop pool draws).isSome = true := by
  intro draws
  induction draws with
  | nil => rintro (⟨e, he⟩ | ⟨t, ht, _⟩) <;> simp at *
  | cons d rest ih =>
    intro h
    cases d with
    | error e => simp [putLoop]
    | ok t =>
      cases hc : pool.conns t with
      | none => simp [putLoop, hc]
      | some c =>
        simp only [putLoop, hc, Option.isSome_some, if_true]
        apply ih
        rcases h with ⟨e, he⟩ | ⟨u, hu, hun⟩
        · left
          rcases List.mem_cons.1 he with h1 | h1
          · cases h1
          · exact ⟨e, h1⟩
        · right
          rcases List.mem_cons.1 hu with h1 | h1
          · simp only [Except.ok.injEq] at h1
            rw [h1, hc] at hun; cases hun
          · exact ⟨u, h1, hun⟩

theorem put_success {Conn : Type} (pool : ConnPool Conn) (conn : Conn)
    (draws : List (Except String String)) (r : PutResult Conn)
    (h : pool.Put conn draws = some r) (herr : r.err = none) :
    pool.conns r.token = none ∧
      r.pool.conns = (fun k => if k = r.token then some conn else pool.conns k) ∧
      r.watcher = some r.token := by
  unfold ConnPool.Put at h
  cases hl : putLoop pool draws with
  | none => simp [hl] at h
  | some res =>
    cases res with
    | error e =>
      simp only [hl, Option.some.injEq] at h
      rw [← h] at herr; simp at herr
    | ok token =>
      simp only [hl, Option.some.injEq] at h
      rw [← h]
      exact ⟨putLoop_ok pool draws token hl, rfl, rfl⟩

theorem put_failure {Conn : Type} (pool : ConnPool Conn) (conn : Conn)
    (draws : List (Except String String)) (r : PutResult Conn)
    (h : pool.Put conn draws = some r) (herr : r.err ≠ none) :
    r.pool = pool ∧ r.loggedOut = true ∧ r.watcher = none := by
  unfold ConnPool.Put at h
  cases hl : putLoop pool draws with
  | none => simp [hl] at h
  | some res =>
    cases res with
    | error e =>
      simp only [hl, Option.some.injEq] at h
      rw [← h]
      exact ⟨rfl, rfl, rfl⟩
    | ok token =>
      simp only [hl, Option.some.injEq] at h
      rw [← h] at herr; simp at herr

theorem runOps_put {Conn : Type} (pool final : ConnPool Conn) (conn : Conn)
    (draws : List (Except String String)) (ops : List (PoolOp Conn))
    (regs : List (String × Conn)) (h : runOps pool (.put conn draws :: ops) = some (final, regs)) :
    ∃ (r : PutResult Conn) (regs2 : List (String × Conn)),
      pool.Put conn draws = some r ∧ runOps r.pool ops = some (final, regs2) ∧
        regs = (if r.err.isNone then (r.token, conn) :: regs2 else regs2) := by
  simp only [runOps] at h
  cases hp : pool.Put conn draws with
  | none => simp [hp] at h
  | some r =>
    simp only [hp] at h
    cases hr : runOps r.pool ops with
    | none => simp [hr] at h
    | some res =>
      obtain ⟨f2, regs2⟩ := res
      simp only [hr, Option.some.injEq, Prod.mk.injEq] at h
      exact ⟨r, regs2, rfl, by rw [← h.1]; exact hr, h.2.symm⟩

/-- Without delete steps, entries are only added: the entries present at the
start are kept, and every registration made is a new key that ends up bound to
its connection; the registered tokens are pairwise distinct. -/
theorem runOps_no_delete {Conn : Type} (ops : List (PoolOp Conn)) :
    ∀ (pool final : ConnPool Conn) (regs : List (String × Conn)),
      (∀ op ∈ ops, op.isDelete = false) → runOps pool ops = some (final, regs) →
      (∀ (k : String) (c : Conn), pool.conns k = some c → final.conns k = some c) ∧
        (∀ (t : String) (c : Conn), (t, c) ∈ regs →
          pool.conns t = none ∧ final.conns t = some c) ∧
        (regs.map Prod.fst).Nodup := by
  induction ops with
  | nil =>
    intro pool final regs _ h
    simp only [runOps, Option.some.injEq, Prod.mk.injEq] at h
    obtain ⟨h1, h2⟩ := h
    subst h1; subst h2
    exact ⟨fun _ _ hk => hk, fun t c hm => by simp at hm, by simp⟩
  | cons op rest ih =>
    intro pool final regs hnd h
    have hrest : ∀ o ∈ rest, o.isDelete = false := fun o ho => hnd o (List.mem_cons_of_mem _ ho)
    cases op with
    | get token => exact ih pool final regs hrest (by simpa [runOps] using h)
    | delete token =>
      have := hnd (.delete token) (by simp)
      simp [PoolOp.isDelete] at this
    | put conn draws =>
      obtain ⟨r, regs2, hp, hr, hregs⟩ := runOps_put pool final conn draws rest regs h
      obtain ⟨ha, hb, hc⟩ := ih r.pool final regs2 hrest hr
      cases herr : r.err with
      | some e =>
        obtain ⟨hpool, _, _⟩ := put_failure pool conn draws r hp (by simp [herr])
        rw [herr] at hregs
        simp only [Option.isNone_some, Bool.false_eq_true, if_false] at hregs
        subst hregs
        rw [hpool] at ha hb
        exact ⟨ha, hb, hc⟩
      | none =>
        obtain ⟨hfresh, hconns, _⟩ := put_success pool conn draws r hp herr
        rw [herr] at hregs
        simp only [Option.isNone_none, if_true] at hregs
        subst hregs
        have htok : final.conns r.token = some conn := ha r.token conn (by simp [hconns])
        refine ⟨?_, ?_, ?_⟩
        · intro k c hk
          apply ha
          rw [hconns]
          have hne : k ≠ r.token := by
            intro he; rw [he, hfresh] at hk; cases hk
          simp [hne, hk]
        · intro t c hm
          rcases List.mem_cons.1 hm with heq | hm
          · simp only [Prod.mk.injEq] at heq
            rw [heq.1, heq.2]
            exact ⟨hfresh, htok⟩
          · obtain ⟨h1, h2⟩ := hb t c hm
            refine ⟨?_, h2⟩
            rw [hconns] at h1
            by_cases hne : t = r.token
            · simp [hne] at h1
            · simpa [hne] using h1
        · simp only [List.map_cons, List.nodup_cons]
          refine ⟨?_, hc⟩
          intro hmem
          obtain ⟨⟨t, c⟩, hm, ht⟩ := List.mem_map.1 hmem
          simp only at ht
          have h1 := (hb t c hm).1
          rw [hconns, ht] at h1
          simp at h1

/-- A token that is not a key and is returned by no later `Put` stays absent. -/
theorem runOps_absent {Conn : Type} (ops : List (PoolOp Conn)) :
    ∀ (pool final : ConnPool Conn) (regs : List (String × Conn)) (token : String),
      runOps pool ops = some (final, regs) → pool.conns token = none →
      token ∉ regs.map Prod.fst → final.conns token = none := by
  induction ops with
  | nil =>
    intro pool final regs token h hk _
    simp only [runOps, Option.some.injEq, Prod.mk.injEq] at h
    rw [← h.1]; exact hk
  | cons op rest ih =>
    intro pool final regs token h hk hnot
    cases op with
    | get t => exact ih pool final regs token (by simpa [runOps] using h) hk hnot
    | delete t =>
      refine ih (pool.watcherDelete t) final regs token (by simpa [runOps] using h) ?_ hnot
      simp only [ConnPool.watcherDelete]
      split
      · rfl
      · exact hk
    | put conn draws =>
      obtain ⟨r, regs2, hp, hr, hregs⟩ := runOps_put pool final conn draws rest regs h
      cases herr : r.err with
      | some e =>
        obtain ⟨hpool, _, _⟩ := put_failure pool conn draws r hp (by simp [herr])
        rw [herr] at hregs
        simp only [Option.isNone_some, Bool.false_eq_true, if_false] at hregs
        subst hregs
        rw [hpool] at hr
        exact ih pool final regs token hr hk hnot
      | none =>
        obtain ⟨_, hconns, _⟩ := put_success pool conn draws r hp herr
        rw [herr] at hregs
        simp only [Option.isNone_none, if_true] at hregs
        subst hregs
        simp only [List.map_cons, List.mem_cons, not_or] at hnot
        refine ih r.pool final regs2 token hr ?_ hnot.2
        rw [hconns]
        simp [hnot.1, hk]

/-- C7: a `Put` that succeeds returns a token that was not a key of the pool
before the call, stores the connection under it and leaves every other entry
unchanged. Hence in any run of `Put`s and `Get`s without a logout, the tokens
returned are pairwise distinct, none was a key at the start, and `Get` on each
returns the connection registered under it. -/
theorem put_fresh_token {Conn : Type} (pool : ConnPool Conn) :
    (∀ (conn : Conn) (draws : List (Except String String)) (r : PutResult Conn),
      pool.Put conn draws = some r → r.err = none →
        pool.conns r.token = none ∧ r.pool.conns r.token = some conn ∧
          (∀ k : String, k ≠ r.token → r.pool.conns k = pool.conns k) ∧
          r.pool.Get r.token = .ok conn) ∧
      (∀ (ops : List (PoolOp Conn)) (final : ConnPool Conn) (regs : List (String × Conn)),
        (∀ op ∈ ops, op.isDelete = false) → runOps pool ops = some (final, regs) →
          (regs.map Prod.fst).Nodup ∧
            ∀ (t : String) (c : Conn), (t, c) ∈ regs →
              pool.conns t = none ∧ final.Get t = .ok c) := by
  constructor
  · intro conn draws r h herr
    obtain ⟨hfresh, hconns, _⟩ := put_success pool conn draws r h herr
    refine ⟨hfresh, by simp [hconns], ?_, by simp [ConnPool.Get, hconns]⟩
    intro k hk
    simp [hconns, hk]
  · intro ops final regs hnd h
    obtain ⟨_, hb, hc⟩ := runOps_no_delete ops pool final regs hnd h
    refine ⟨hc, fun t c hm => ?_⟩
    obtain ⟨h1, h2⟩ := hb t c hm
    exact ⟨h1, by simp [ConnPool.Get, h2]⟩

/-- Two connections registered on an empty pool, the second after a collision
on "a": the tokens are "a" and "b", and each finds its connection. -/
theorem put_fresh_token_witness :
    ∃ (final : ConnPool Nat) (regs : List (String × Nat)),
      runOps NewConnPool twoPuts = some (final, regs) ∧ regs = [("a", 1), ("b", 2)] ∧
        (regs.map Prod.fst).Nodup ∧
        ∀ (t : String) (c : Nat), (t, c) ∈ regs →
          (NewConnPool : ConnPool Nat).conns t = none ∧ final.Get t = .ok c :=
  ⟨_, _, rfl, rfl,
    (put_fresh_token (NewConnPool : ConnPool Nat)).2 twoPuts _ _
      (by decide) rfl⟩

/-- C8 as amended: the delete step of the logout watcher removes the entry of
its token and no other, so `Get` on that token fails with `ErrSessionExpired`;
and it still fails after every later run of `Put`, `Get` and delete steps in
which no `Put` returns that token again. The watcher a successful `Put` starts
deletes the token that `Put` returned. -/
theorem get_after_logout {Conn : Type} (pool : ConnPool Conn) (token : String) :
    (∀ (conn : Conn) (draws : List (Except String String)) (r : PutResult Conn),
      pool.Put conn draws = some r → r.err = none → r.watcher = some r.token) ∧
      (pool.watcherDelete token).Get token = .error ErrSessionExpired ∧
      (∀ k : String, k ≠ token → (pool.watcherDelete token).conns k = pool.conns k) ∧
      (∀ (ops : List (PoolOp Conn)) (final : ConnPool Conn) (regs : List (String × Conn)),
        runOps (pool.watcherDelete token) ops = some (final, regs) →
          token ∉ regs.map Prod.fst → final.Get token = .error ErrSessionExpired) := by
  have hdel : (pool.watcherDelete token).conns token = none := by simp [ConnPool.watcherDelete]
  refine ⟨fun conn draws r h herr => (put_success pool conn draws r h herr).2.2, ?_, ?_, ?_⟩
  · simp [ConnPool.Get, hdel]
  · intro k hk
    simp [ConnPool.watcherDelete, hk]
  · intro ops final regs h hnot
    have := runOps_absent ops _ final regs token h hdel hnot
    simp [ConnPool.Get, this]

/-- After connection 1 logged out of token "t", another session under "u":
`Get` on "t" still fails. -/
theorem get_after_logout_witness :
    ∃ (final : ConnPool Nat) (regs : List (String × Nat)),
      runOps ((poolAfter NewConnPool [.put 1 [.ok "t"]]).watcherDelete "t") otherSession =
          some (final, regs) ∧
        regs = [("u", 2)] ∧ final.Get "t" = .error ErrSessionExpired :=
  ⟨_, _, rfl, rfl,
    (get_after_logout (poolAfter NewConnPool [.put 1 [.ok "t"]]) "t").2.2.2 otherSession _ _ rfl
      (by decide)⟩

/-- C8 as stated fails: after connection 1 logged out of token "t", `Get` on
"t" fails; a later `Put` of connection 2 whose generator draws "t" again
succeeds, and from then on `Get` on "t" returns connection 2. -/
theorem get_after_logout_token_drawn_again :
    (poolAfter NewConnPool loginLogout).Get "t" = .error ErrSessionExpired ∧
      (runOps (poolAfter NewConnPool loginLogout) tokenDrawnAgain).map (fun s => s.2) =
        some [("t", 2)] ∧
      (poolAfter (poolAfter NewConnPool loginLogout) tokenDrawnAgain).Get "t" = .ok 2 ∧
      (poolAfter (poolAfter NewConnPool loginLogout) tokenDrawnAgain).Get "t" ≠
        .error ErrSessionExpired := by
  refine ⟨rfl, rfl, rfl, ?_⟩
  intro h
  cases h

end Alps
